import Mathlib

/-!
Shallow embedding of the `private_approximate_nearest_neighbor_counting`
indexing and query engine, together with proofs of the specification claims.

Numeric conventions: the Rust code computes over `f64`.  The embedding is
generic over a `LinearOrderedField F` for all arithmetic the code performs
exactly on small rationals (inner products, comparisons, table building),
and uses `ℝ` with `Real.sqrt` / `Real.log` for the transcendental threshold
and corridor-bound formulas.  Randomness (the Gaussian direction generator)
is externalized: constructors take the generated direction vectors as an
explicit argument.  A Rust panic (out-of-bounds index, `unwrap` of `None`)
is modelled by `Option.none`; a returned `io::Error` by `Except.error`.
-/

namespace PANN

variable {F : Type _} [LinearOrderedField F]
variable {K : Type _} [DecidableEq K]

/-- Embedding of `utils.rs::dot_product` (also `get_dot_product`): zip the two
vectors, multiply componentwise and sum. -/
def dot_product (v w : List F) : F :=
  ((v.zip w).map fun p => p.1 * p.2).sum

/-- Sum of squares of the entries of a vector, as computed by
`vector.iter().map(|x| x * x).sum::<f64>()`. -/
def sum_squares (v : List F) : F :=
  (v.map fun x => x * x).sum

/-- Embedding of `query.rs::is_normalized`: the squared norm is within `1e-6`
of `1`. -/
def is_normalized (v : List F) : Bool :=
  decide (|sum_squares v - 1| ≤ 1 / 1000000)

/-- Embedding of the per-vector loop of `checks.rs::check_input`: each vector
is checked for dimension `d` and unit normalization, in order, and the first
failure is reported. -/
def check_vectors (d : ℕ) : List (List F) → ℕ → Except String Unit
  | [], _ => .ok ()
  | v :: rest, i =>
    if v.length ≠ d then
      .error ("Vector at index " ++ toString i ++ " has a different dimension (expected "
        ++ toString d ++ ", got " ++ toString v.length ++ ").")
    else if ¬ (|sum_squares v - 1| ≤ 1 / 1000000) then
      .error ("Vector at index " ++ toString i ++ " is not normalized.")
    else check_vectors d rest (i + 1)

/-- Embedding of `checks.rs::check_input`: validate `alpha`, `beta`, `theta`,
non-emptiness, positive uniform dimension, and unit normalization, returning
the first failing check's message. -/
def check_input (data : List (List F)) (alpha beta theta : F) : Except String Unit :=
  if ¬ (0 < alpha ∧ alpha < 1) then
    .error "Invalid value for alpha. Alpha must be in the range (0, 1)."
  else if ¬ (0 < beta ∧ beta < alpha) then
    .error "Invalid value for beta. Beta must be in the range (0, alpha)."
  else if ¬ (0 < theta) then
    .error "Invalid value for theta. Theta must be positive."
  else if data.isEmpty then
    .error "Data cannot be empty."
  else
    let d := (data.headD []).length
    if d = 0 then .error "Vectors cannot have zero dimensions."
    else check_vectors d data 0

/-- The value of Rust's `f64::MIN`, the initial accumulator of the arg-max
loop in `simple_data_structures/top1.rs::get_hash_table`:
`-(2 - 2^-52) * 2^1023 = -(2^1024 - 2^971)`. -/
def f64MIN : F := -((2 : F) ^ (1024 : ℕ) - (2 : F) ^ (971 : ℕ))

/-- Embedding of the inner loop of
`simple_data_structures/top1.rs::get_hash_table`: running `(max, argmax)`
state, updated on a strict improvement (`>` in the source, hence the first
maximal index is kept). `j` is the index of the head of the remaining list. -/
def top1_assign_aux (p : List F) : List (List F) → ℕ → F × ℕ → F × ℕ
  | [], _, acc => acc
  | g :: rest, j, acc =>
    top1_assign_aux p rest (j + 1)
      (if acc.1 < dot_product p g then (dot_product p g, j) else acc)

/-- Index of the Gaussian direction a data vector is assigned to by the
arg-max policy of `simple_data_structures/top1.rs::get_hash_table`
(initial state `(f64::MIN, 0)`). -/
def top1_assign (p : List F) (dirs : List (List F)) : ℕ :=
  (top1_assign_aux p dirs 0 (f64MIN, 0)).2

/-- Embedding of the fold underlying `Iterator::max_by` in
`tensor_data_structures/top1.rs::get_match_list_parallel`: `cmp::max_by`
keeps the later element unless the accumulator compares strictly greater,
so ties go to the later index. -/
def max_by_aux (p : List F) : List (List F) → ℕ → ℕ × F → ℕ × F
  | [], _, acc => acc
  | g :: rest, j, acc =>
    max_by_aux p rest (j + 1)
      (if acc.2 ≤ dot_product p g then (j, dot_product p g) else acc)

/-- Embedding of one point's assignment in
`tensor_data_structures/top1.rs::get_match_list_parallel`:
`max_by(...).unwrap().0`, where the `unwrap` of an empty iterator is a panic
(modelled as `none`). -/
def match_index (p : List F) : List (List F) → Option ℕ
  | [] => none
  | g :: rest => some (max_by_aux p rest 1 (0, dot_product p g)).1

/-- Embedding of `tensor_data_structures/top1.rs::get_match_list_parallel`
(the Rayon parallel map is semantically a map over data points). -/
def get_match_list (data dirs : List (List F)) : Option (List ℕ) :=
  data.mapM fun p => match_index p dirs

/-- Embedding of the inner loop of
`simple_data_structures/close_top1.rs::get_hash_table`: the first direction
(in enumeration order) whose inner product with the point lies in
`[left, right]`; the `break` stops at the first hit. -/
def corridor_assign_aux (p : List F) (left right : F) : List (List F) → ℕ → Option ℕ
  | [], _ => none
  | g :: rest, j =>
    if left ≤ dot_product p g ∧ dot_product p g ≤ right then some j
    else corridor_assign_aux p left right rest (j + 1)

/-- Corridor-policy assignment of a point, starting at direction index 0. -/
def corridor_assign (p : List F) (left right : F) (dirs : List (List F)) : Option ℕ :=
  corridor_assign_aux p left right dirs 0

/-- Embedding of `HashMap::entry(k).or_insert_with(Vec::new).push(p)`:
the bucket map is modelled as a function `K → Option (List (List F))`
(`none` = key absent, mirroring `HashMap::get`). -/
def bucket_insert (tbl : K → Option (List (List F))) (k : K) (p : List F) :
    K → Option (List (List F)) :=
  fun j => if j = k then some ((tbl j).getD [] ++ [p]) else tbl j

/-- Common shape of the bucket-table construction loops: walk the data in
order, compute each point's (optional) bucket key, and push the point into
that bucket; a point with no key is skipped. -/
def build_table (assign : List F → Option K) :
    List (List F) → (K → Option (List (List F))) → K → Option (List (List F))
  | [], tbl => tbl
  | p :: ps, tbl =>
    build_table assign ps
      (match assign p with
        | some k => bucket_insert tbl k p
        | none => tbl)

/-- Embedding of `simple_data_structures/top1.rs::get_hash_table`: every data
vector is assigned to its arg-max direction index (`assign` always succeeds). -/
def top1_get_hash_table (data dirs : List (List F)) : ℕ → Option (List (List F)) :=
  build_table (fun p => some (top1_assign p dirs)) data (fun _ => none)

/-- Embedding of `simple_data_structures/close_top1.rs::get_hash_table`, with
the corridor bounds `left`, `right` passed as parameters (the source computes
them from `m = gaussian_vectors.len()`; see `close_hash_tableR`). -/
def close_get_hash_table (data dirs : List (List F)) (left right : F) :
    ℕ → Option (List (List F)) :=
  build_table (fun p => corridor_assign p left right dirs) data (fun _ => none)

/-- Embedding of the loop of `simple_data_structures/query.rs::search`: indices
of the directions whose inner product with the query meets the threshold,
in enumeration order; `j` is the index of the head of the remaining list. -/
def search_indices_aux (q : List F) (threshold : F) : List (List F) → ℕ → List ℕ
  | [], _ => []
  | g :: rest, j =>
    if threshold ≤ dot_product q g then j :: search_indices_aux q threshold rest (j + 1)
    else search_indices_aux q threshold rest (j + 1)

/-- Direction indices meeting the threshold, starting from index 0. -/
def search_indices (dirs : List (List F)) (q : List F) (threshold : F) : List ℕ :=
  search_indices_aux q threshold dirs 0

/-- Embedding of `simple_data_structures/query.rs::search`: `None` when no
direction qualifies, `Some` of the index list otherwise. -/
def search_opt (dirs : List (List F)) (q : List F) (threshold : F) : Option (List ℕ) :=
  let r := search_indices dirs q threshold
  if r.isEmpty then none else some r

/-- Embedding of `query.rs::find_close_vector`: the first vector of the bucket
whose inner product with the query is at least `beta`. -/
def find_close_vector (q : List F) (vectors : List (List F)) (beta : F) :
    Option (List F) :=
  vectors.find? fun v => decide (beta ≤ dot_product q v)

/-- Embedding of the candidate-scanning loop of
`simple_data_structures/query.rs::query`: for each candidate label in order,
look the bucket up and return the first vector meeting `beta`. -/
def scan_buckets (q : List F) (tbl : ℕ → Option (List (List F))) (beta : F) :
    List ℕ → Option (List F)
  | [] => none
  | i :: rest =>
    match tbl i with
    | some vectors =>
      match find_close_vector q vectors beta with
      | some v => some v
      | none => scan_buckets q tbl beta rest
    | none => scan_buckets q tbl beta rest

/-- Embedding of `simple_data_structures/query.rs::query` (the same code is
shared by the `Top1` and `CloseTop1` structures): validate normalization,
search for candidate labels, then scan the buckets. -/
def simple_query (dirs : List (List F)) (q : List F) (threshold : F)
    (tbl : ℕ → Option (List (List F))) (beta : F) : Except String (Option (List F)) :=
  if is_normalized q = false then .error "Query vector is not normalized"
  else
    match search_opt dirs q threshold with
    | none => .ok none
    | some indices => .ok (scan_buckets q tbl beta indices)

namespace Simple

/-- Embedding of the `Top1` struct of `simple_data_structures/top1.rs`. -/
structure Top1 (F : Type _) where
  gaussian_vectors : List (List F)
  hash_table : ℕ → Option (List (List F))
  alpha : F
  beta : F
  threshold : F
  m : ℕ

/-- Embedding of the `CloseTop1` struct of
`simple_data_structures/close_top1.rs` (identical fields). -/
structure CloseTop1 (F : Type _) where
  gaussian_vectors : List (List F)
  hash_table : ℕ → Option (List (List F))
  alpha : F
  beta : F
  threshold : F
  m : ℕ

/-- Embedding of `Top1::new` up to the threshold computation (passed as a
parameter; see `Simple.Top1.new` for the `ℝ`-level version).  The result of
`check_input` is only printed by the source, so it is discarded here; the
unguarded `data[0]` access panics (`none`) on an empty dataset. -/
def Top1.newCore (data dirs : List (List F)) (alpha beta theta threshold : F) :
    Option (Top1 F) :=
  let _ := check_input data alpha beta theta
  match data with
  | [] => none
  | _ :: _ => some ⟨dirs, top1_get_hash_table data dirs, alpha, beta, threshold, dirs.length⟩

end Simple

namespace Tensor

/-- Embedding of the `Top1` struct of `tensor_data_structures/top1.rs`. -/
structure Top1 (F : Type _) where
  gaussian_vectors : List (List F)
  match_list : List ℕ
  threshold : F

end Tensor

/-- Embedding of the loop of `tensor_data_structures/top1.rs::search`:
string labels (the index followed by `#`) of the directions meeting the
threshold, in enumeration order. -/
def search_hashes_aux (q : List F) (threshold : F) : List (List F) → ℕ → List String
  | [], _ => []
  | g :: rest, j =>
    if threshold ≤ dot_product q g then
      (toString j ++ "#") :: search_hashes_aux q threshold rest (j + 1)
    else search_hashes_aux q threshold rest (j + 1)

namespace Tensor

/-- Embedding of `Top1::search` in `tensor_data_structures/top1.rs`. -/
def Top1.search (t : Top1 F) (q : List F) : List String :=
  search_hashes_aux q t.threshold t.gaussian_vectors 0

/-- Embedding of `Top1::hash` in `tensor_data_structures/top1.rs`:
`format!("{}#", self.match_list[i])`, where the out-of-bounds index panic
is modelled as `none`. -/
def Top1.hash (t : Top1 F) (i : ℕ) : Option String :=
  (t.match_list.get? i).map fun j => toString j ++ "#"

/-- Embedding of `Top1::new` in `tensor_data_structures/top1.rs` up to the
threshold computation (passed as a parameter): `data[0]` panics on an empty
dataset, and `get_match_list` panics when there are no directions. -/
def Top1.newCore (data dirs : List (List F)) (alpha beta theta threshold : F) :
    Option (Top1 F) :=
  let _ := check_input data alpha beta theta
  match data with
  | [] => none
  | _ :: _ => (get_match_list data dirs).map fun ml => ⟨dirs, ml, threshold⟩

end Tensor

/-- Embedding of `tensor_data_structures/query.rs::cartesian_product`: a fold
starting from the singleton empty string, appending each label of the current
set to each accumulated combination. -/
def cartesian_product (collection : List (List String)) : List String :=
  if collection.isEmpty then []
  else
    collection.foldl
      (fun acc s => acc.flatMap fun pre => s.map fun suf => pre ++ suf) [""]

namespace Tensor

/-- Embedding of `tensor_data_structures/query.rs::search`: the Cartesian
product of the per-substructure candidate label sets. -/
def search (top1_list : List (Top1 F)) (q : List F) : List String :=
  cartesian_product (top1_list.map fun t => t.search q)

end Tensor

/-- String-keyed analogue of `scan_buckets`, embedding the probing loop of
`tensor_data_structures/query.rs::query`. -/
def scan_buckets_str (q : List F) (tbl : String → Option (List (List F))) (beta : F) :
    List String → Option (List F)
  | [] => none
  | k :: rest =>
    match tbl k with
    | some vectors =>
      match find_close_vector q vectors beta with
      | some v => some v
      | none => scan_buckets_str q tbl beta rest
    | none => scan_buckets_str q tbl beta rest

namespace Tensor

/-- Embedding of `tensor_data_structures/query.rs::query`: validate
normalization, take the Cartesian product of candidate labels, return
not-found on an empty product, else probe the composite table. -/
def query (q : List F) (top1_list : List (Top1 F))
    (tbl : String → Option (List (List F))) (beta : F) :
    Except String (Option (List F)) :=
  if is_normalized q = false then .error "Query vector is not normalized"
  else
    let indices := search top1_list q
    if indices.isEmpty then .ok none
    else .ok (scan_buckets_str q tbl beta indices)

/-- Composite key of data point `i`, embedding the concatenation loop of
`tensor_data_structures/tensor_top1.rs::get_hash_table`
(`hash += top1.hash(i)` over the substructures in order). -/
def key (top1_list : List (Top1 F)) (i : ℕ) : Option String :=
  (top1_list.mapM fun t => Top1.hash t i).map String.join

/-- Total form of `Tensor.key` used in statements: the concatenation over the
substructures of the `i`-th match-list entry rendered as `label#`. -/
def keyD (top1_list : List (Top1 F)) (i : ℕ) : String :=
  String.join (top1_list.map fun t => toString (t.match_list.getD i 0) ++ "#")

/-- Data points (in data order) from position `i` on whose composite key
equals `k`; reference function for the composite-table characterization. -/
def keyed_points (top1_list : List (Top1 F)) : List (List F) → ℕ → String → List (List F)
  | [], _, _ => []
  | p :: ps, i, k =>
    if keyD top1_list i = k then p :: keyed_points top1_list ps (i + 1) k
    else keyed_points top1_list ps (i + 1) k

/-- Loop of `tensor_data_structures/tensor_top1.rs::get_hash_table`: insert
each data point under its composite key; a panic while computing a key
(out-of-range match-list access) aborts the construction. -/
def get_hash_table_aux (top1_list : List (Top1 F)) :
    List (List F) → ℕ → (String → Option (List (List F))) →
    Option (String → Option (List (List F)))
  | [], _, tbl => some tbl
  | p :: ps, i, tbl =>
    match key top1_list i with
    | none => none
    | some k => get_hash_table_aux top1_list ps (i + 1) (bucket_insert tbl k p)

/-- Embedding of `tensor_data_structures/tensor_top1.rs::get_hash_table`. -/
def get_hash_table (data : List (List F)) (top1_list : List (Top1 F)) :
    Option (String → Option (List (List F))) :=
  get_hash_table_aux top1_list data 0 (fun _ => none)

/-- Embedding of the `TensorTop1` struct of
`tensor_data_structures/tensor_top1.rs`. -/
structure TensorTop1 (F : Type _) where
  top1_list : List (Top1 F)
  hash_table : String → Option (List (List F))
  alpha : F
  beta : F

end Tensor

/-- Embedding of `utils.rs::get_threshold`:
`alpha * sqrt(2 ln m) + (-(sqrt(2 (1 - alpha^2) ln ln m)))`. -/
noncomputable def get_threshold (alpha : ℝ) (m : ℕ) : ℝ :=
  alpha * Real.sqrt (2 * Real.log m) + -Real.sqrt (2 * (1 - alpha ^ 2) * Real.log (Real.log m))

/-- Right corridor bound of `simple_data_structures/close_top1.rs::get_hash_table`:
`sqrt(2 ln m)`. -/
noncomputable def close_right (m : ℕ) : ℝ := Real.sqrt (2 * Real.log m)

/-- Left corridor bound of `simple_data_structures/close_top1.rs::get_hash_table`:
`sqrt(2 ln m) - (3/2) * (ln ln m / sqrt(2 ln m))`. -/
noncomputable def close_left (m : ℕ) : ℝ :=
  Real.sqrt (2 * Real.log m) - 3 / 2 * (Real.log (Real.log m) / Real.sqrt (2 * Real.log m))

/-- Corridor bucket table with the bounds computed from
`m = gaussian_vectors.len()` as in the source. -/
noncomputable def close_hash_tableR (data dirs : List (List ℝ)) :
    ℕ → Option (List (List ℝ)) :=
  close_get_hash_table data dirs (close_left dirs.length) (close_right dirs.length)

namespace Simple

/-- Embedding of `simple_data_structures/top1.rs::Top1::new` over `ℝ` (the
direction count `m` is identified with `dirs.length`, the length of the
externally generated direction list). -/
noncomputable def Top1.new (data dirs : List (List ℝ)) (alpha beta theta : ℝ) :
    Option (Top1 ℝ) :=
  Top1.newCore data dirs alpha beta theta (get_threshold alpha dirs.length)

/-- Embedding of `simple_data_structures/close_top1.rs::CloseTop1::new` over
`ℝ`: identical to `Top1::new` except for the corridor bucket table. -/
noncomputable def CloseTop1.new (data dirs : List (List ℝ)) (alpha beta theta : ℝ) :
    Option (CloseTop1 ℝ) :=
  let _ := check_input data alpha beta theta
  match data with
  | [] => none
  | _ :: _ =>
    some ⟨dirs, close_hash_tableR data dirs, alpha, beta,
      get_threshold alpha dirs.length, dirs.length⟩

end Simple

namespace Tensor

/-- Embedding of `tensor_data_structures/top1.rs::Top1::new` over `ℝ`. -/
noncomputable def Top1.new (data dirs : List (List ℝ)) (alpha beta theta : ℝ) :
    Option (Top1 ℝ) :=
  Top1.newCore data dirs alpha beta theta (get_threshold alpha dirs.length)

/-- Embedding of `tensor_data_structures/tensor_top1.rs::TensorTop1::new` over
`ℝ`: the number `t` of substructures is identified with `dirss.length` (one
externally generated direction list per substructure) and the per-substructure
exponent is `theta / t`.  The parameter-printing block reads `data[0]`, so an
empty dataset panics (`none`) before anything is built. -/
noncomputable def TensorTop1.new (data : List (List ℝ)) (dirss : List (List (List ℝ)))
    (alpha beta theta : ℝ) : Option (TensorTop1 ℝ) :=
  match data with
  | [] => none
  | _ :: _ => do
    let top1_list ← dirss.mapM fun dirs =>
      Top1.new data dirs alpha beta (theta / (dirss.length : ℝ))
    let tbl ← get_hash_table data top1_list
    pure ⟨top1_list, tbl, alpha, beta⟩

end Tensor

/-! ### Helper lemmas -/

/-- Flat-mapping the constant empty list gives the empty list. -/
theorem flatMap_const_nil (acc : List String) :
    (acc.flatMap fun _ => ([] : List String)) = [] := by
  induction acc with
  | nil => rfl
  | cons a rest ih => simp [List.flatMap_cons, ih]

/-- The Cartesian-product fold started from the empty accumulator stays empty. -/
theorem foldl_cp_nil (l : List (List String)) :
    l.foldl (fun acc s => acc.flatMap fun pre => s.map fun suf => pre ++ suf) [] = [] := by
  induction l with
  | nil => rfl
  | cons c rest ih =>
    simp only [List.foldl_cons]
    have h : (([] : List String).flatMap fun pre => c.map fun suf => pre ++ suf) = [] := rfl
    rw [h]; exact ih

/-- The Cartesian-product fold collapses to the empty list as soon as one of
the remaining factor sets is empty. -/
theorem foldl_cp_mem_nil (l : List (List String)) (acc : List String) (h : [] ∈ l) :
    l.foldl (fun acc s => acc.flatMap fun pre => s.map fun suf => pre ++ suf) acc = [] := by
  induction l generalizing acc with
  | nil => cases h
  | cons c rest ih =>
    simp only [List.foldl_cons]
    rcases List.mem_cons.mp h with h1 | h2
    · rw [← h1]
      have hstep : (acc.flatMap fun pre => ([] : List String).map fun suf => pre ++ suf) = [] :=
        flatMap_const_nil acc
      rw [hstep]; exact foldl_cp_nil rest
    · exact ih _ h2

/-- Absorbing empty-set law for the Cartesian product. -/
theorem cartesian_product_absorb (collection : List (List String)) (h : [] ∈ collection) :
    cartesian_product collection = [] := by
  cases collection with
  | nil => cases h
  | cons c rest =>
    unfold cartesian_product
    rw [if_neg (by simp)]
    exact foldl_cp_mem_nil _ _ h

/-! ### Claim theorems -/

/-- C7: the Cartesian-product construction over label sets satisfies the
stated equations — `[["a","b"],["c","d"]] ↦ ["ac","ad","bc","bd"]`,
`[["a","b","c"],["c"]] ↦ ["ac","bc","cc"]`, `[["a"]] ↦ ["a"]`,
`[["a","b"],[],["c"]] ↦ []` — and in general any collection containing an
empty set maps to the empty list (absorbing empty-set law). -/
theorem claim_C7_cartesian_product_laws :
    cartesian_product [["a", "b"], ["c", "d"]] = ["ac", "ad", "bc", "bd"] ∧
    cartesian_product [["a", "b", "c"], ["c"]] = ["ac", "bc", "cc"] ∧
    cartesian_product [["a"]] = ["a"] ∧
    cartesian_product [["a", "b"], [], ["c"]] = [] ∧
    ∀ collection : List (List String), [] ∈ collection → cartesian_product collection = [] :=
  ⟨by decide, by decide, by decide, by decide, cartesian_product_absorb⟩

/-- C7 witness: the absorbing empty-set law applied at a concrete collection
containing an empty factor. -/
theorem claim_C7_witness :
    [] ∈ [["x"], [], ["y"]] ∧ cartesian_product [["x"], [], ["y"]] = [] :=
  ⟨by decide, claim_C7_cartesian_product_laws.2.2.2.2 [["x"], [], ["y"]] (by decide)⟩

/-- Unnormalized queries make `simple_query` return the invalid-query error. -/
theorem simple_query_error_of {F : Type _} [LinearOrderedField F]
    {q : List F} (dirs : List (List F)) (threshold : F)
    (tbl : ℕ → Option (List (List F))) (beta : F) (h : is_normalized q = false) :
    simple_query dirs q threshold tbl beta = .error "Query vector is not normalized" := by
  simp [simple_query, h]

/-- Normalized queries never make `simple_query` return an error. -/
theorem simple_query_not_error_of {F : Type _} [LinearOrderedField F]
    {q : List F} (dirs : List (List F)) (threshold : F)
    (tbl : ℕ → Option (List (List F))) (beta : F) (h : is_normalized q = true) :
    ∀ e, simple_query dirs q threshold tbl beta ≠ .error e := by
  intro e
  cases hs : search_opt dirs q threshold with
  | none => simp [simple_query, h, hs]
  | some idxs => simp [simple_query, h, hs]

/-- Unnormalized queries make the tensor query return the invalid-query error. -/
theorem tensor_query_error_of {F : Type _} [LinearOrderedField F]
    {q : List F} (top1_list : List (Tensor.Top1 F))
    (tbl : String → Option (List (List F))) (beta : F) (h : is_normalized q = false) :
    Tensor.query q top1_list tbl beta = .error "Query vector is not normalized" := by
  simp [Tensor.query, h]

/-- Normalized queries never make the tensor query return an error. -/
theorem tensor_query_not_error_of {F : Type _} [LinearOrderedField F]
    {q : List F} (top1_list : List (Tensor.Top1 F))
    (tbl : String → Option (List (List F))) (beta : F) (h : is_normalized q = true) :
    ∀ e, Tensor.query q top1_list tbl beta ≠ .error e := by
  intro e
  by_cases hi : (Tensor.search top1_list q).isEmpty <;> simp [Tensor.query, h, hi]

/-- C5: for every index variant (the base/corridor query and the tensor
query), `query(q)` returns an `Error` result exactly when the squared norm of
`q` differs from `1` by more than `1e-6`; a unit-normalized query never
produces an error. -/
theorem claim_C5_query_error_iff_unnormalized {F : Type _} [LinearOrderedField F]
    (dirs : List (List F)) (q : List F) (threshold : F)
    (tbl : ℕ → Option (List (List F))) (beta : F)
    (top1_list : List (Tensor.Top1 F)) (stbl : String → Option (List (List F))) :
    ((∃ e, simple_query dirs q threshold tbl beta = .error e) ↔
      1 / 1000000 < |sum_squares q - 1|) ∧
    ((∃ e, Tensor.query q top1_list stbl beta = .error e) ↔
      1 / 1000000 < |sum_squares q - 1|) := by
  by_cases hn : |sum_squares q - 1| ≤ 1 / 1000000
  · have hb : is_normalized q = true := decide_eq_true hn
    have hR : ¬ (1 / 1000000 < |sum_squares q - 1|) := not_lt.mpr hn
    refine ⟨iff_of_false ?_ hR, iff_of_false ?_ hR⟩
    · rintro ⟨e, he⟩
      exact simple_query_not_error_of dirs threshold tbl beta hb e he
    · rintro ⟨e, he⟩
      exact tensor_query_not_error_of top1_list stbl beta hb e he
  · have hb : is_normalized q = false := decide_eq_false hn
    have hR : 1 / 1000000 < |sum_squares q - 1| := not_le.mp hn
    exact ⟨iff_of_true ⟨_, simple_query_error_of dirs threshold tbl beta hb⟩ hR,
      iff_of_true ⟨_, tensor_query_error_of top1_list stbl beta hb⟩ hR⟩

/-- C10: for every `alpha`, `beta`, `theta` (and any externally generated
direction lists), constructing any index variant from an empty dataset never
returns an error result: the validation failure is discarded and the
unguarded `data[0]` access panics (modelled as `none`), while `check_input`
itself would have reported an error. -/
theorem claim_C10_empty_dataset_panics (alpha beta theta : ℝ)
    (dirs : List (List ℝ)) (dirss : List (List (List ℝ))) :
    Simple.Top1.new [] dirs alpha beta theta = none ∧
    Simple.CloseTop1.new [] dirs alpha beta theta = none ∧
    Tensor.Top1.new [] dirs alpha beta theta = none ∧
    Tensor.TensorTop1.new [] dirss alpha beta theta = none ∧
    check_input ([] : List (List ℝ)) alpha beta theta ≠ .ok () := by
  refine ⟨rfl, rfl, rfl, rfl, ?_⟩
  unfold check_input
  split_ifs <;> simp_all

/-- C1 (code-bug evaluation): at the failing input
`data = [[1,0,0]]`, `alpha = 2`, `beta = 1/2`, `theta = 1`, validation fails
with a descriptive error, yet all three constructors still produce a usable
index — construction is not aborted. -/
theorem claim_C1_validation_discarded :
    check_input ([[1, 0, 0]] : List (List ℝ)) 2 (1 / 2) 1 =
      .error "Invalid value for alpha. Alpha must be in the range (0, 1)." ∧
    (Simple.Top1.new [[1, 0, 0]] [[1, 0, 0]] 2 (1 / 2) 1).isSome = true ∧
    (Simple.CloseTop1.new [[1, 0, 0]] [[1, 0, 0]] 2 (1 / 2) 1).isSome = true ∧
    (Tensor.TensorTop1.new [[1, 0, 0]] [[[1, 0, 0]]] 2 (1 / 2) 1).isSome = true := by
  refine ⟨?_, rfl, rfl, ?_⟩
  · unfold check_input
    rw [if_pos]
    norm_num
  · rfl

/-- C3: for every tensor index and unit-normalized query, if any substructure
returns an empty candidate label set then the tensor query returns `NotFound`
(`Ok(None)`) regardless of the composite bucket table — the table is never
probed. -/
theorem claim_C3_tensor_empty_shortcircuit {F : Type _} [LinearOrderedField F]
    (q : List F) (top1_list : List (Tensor.Top1 F)) (beta : F)
    (hnorm : is_normalized q = true)
    (hempty : ∃ t ∈ top1_list, Tensor.Top1.search t q = []) :
    ∀ tbl : String → Option (List (List F)),
      Tensor.query q top1_list tbl beta = .ok none := by
  intro tbl
  have hsearch : Tensor.search top1_list q = [] := by
    rcases hempty with ⟨t, ht, hts⟩
    exact cartesian_product_absorb _ (List.mem_map.mpr ⟨t, ht, hts⟩)
  rw [Tensor.query, hnorm]
  simp [Tensor.search] at hsearch ⊢
  simp [hsearch]

/-- C3 witness: a concrete one-substructure tensor index whose search result
is empty (threshold 2 exceeds the inner product 1), on which the tensor query
returns `Ok(None)` for an arbitrary table. -/
theorem claim_C3_witness :
    is_normalized ([1, 0, 0] : List ℚ) = true ∧
    (∃ t ∈ ([⟨[[1, 0, 0]], [0], 2⟩] : List (Tensor.Top1 ℚ)),
      Tensor.Top1.search t [1, 0, 0] = []) ∧
    Tensor.query ([1, 0, 0] : List ℚ) [⟨[[1, 0, 0]], [0], 2⟩]
      (fun _ => none) (1 / 2) = .ok none :=
  ⟨by with_unfolding_all rfl,
    ⟨⟨[[1, 0, 0]], [0], 2⟩, List.mem_cons_self _ _, by with_unfolding_all rfl⟩,
    claim_C3_tensor_empty_shortcircuit [1, 0, 0] [⟨[[1, 0, 0]], [0], 2⟩] (1 / 2)
      (by with_unfolding_all rfl)
      ⟨⟨[[1, 0, 0]], [0], 2⟩, List.mem_cons_self _ _, by with_unfolding_all rfl⟩
      (fun _ => none)⟩

/-- Membership in the threshold-search result, with the running start index
made explicit. -/
theorem search_indices_aux_mem {F : Type _} [LinearOrderedField F]
    (q : List F) (thr : F) (dirs : List (List F)) :
    ∀ (k i : ℕ), i ∈ search_indices_aux q thr dirs k ↔
      ∃ j, j < dirs.length ∧ i = k + j ∧ thr ≤ dot_product q (dirs.getD j []) := by
  induction dirs with
  | nil => intro k i; simp [search_indices_aux]
  | cons g rest ih =>
    intro k i
    by_cases hg : thr ≤ dot_product q g
    · rw [search_indices_aux, if_pos hg]
      constructor
      · intro hi
        rcases List.mem_cons.mp hi with h0 | h1
        · exact ⟨0, by simp, by simp [h0], by simpa using hg⟩
        · rcases (ih (k + 1) i).mp h1 with ⟨j, hj, hij, hd⟩
          exact ⟨j + 1, by simpa using Nat.succ_lt_succ hj, by omega, by simpa using hd⟩
      · rintro ⟨j, hj, rfl, hd⟩
        cases j with
        | zero => simp
        | succ j' =>
          refine List.mem_cons_of_mem _ ((ih (k + 1) _).mpr ⟨j', ?_, by omega, ?_⟩)
          · exact Nat.lt_of_succ_lt_succ (by simpa using hj)
          · simpa using hd
    · rw [search_indices_aux, if_neg hg]
      rw [ih (k + 1) i]
      constructor
      · rintro ⟨j, hj, hij, hd⟩
        exact ⟨j + 1, by simpa using Nat.succ_lt_succ hj, by omega, by simpa using hd⟩
      · rintro ⟨j, hj, rfl, hd⟩
        cases j with
        | zero => exact absurd (by simpa using hd) hg
        | succ j' =>
          refine ⟨j', Nat.lt_of_succ_lt_succ (by simpa using hj), by omega, by simpa using hd⟩

/-- A direction index is a candidate for a query exactly when the inner
product meets the threshold. -/
theorem search_indices_mem {F : Type _} [LinearOrderedField F]
    (dirs : List (List F)) (q : List F) (thr : F) (i : ℕ) :
    i ∈ search_indices dirs q thr ↔
      i < dirs.length ∧ thr ≤ dot_product q (dirs.getD i []) := by
  rw [search_indices, search_indices_aux_mem]
  constructor
  · rintro ⟨j, hj, rfl, hd⟩
    simp only [Nat.zero_add]
    exact ⟨hj, hd⟩
  · rintro ⟨hi, hd⟩
    exact ⟨i, hi, (Nat.zero_add i).symm, hd⟩

/-- Every element of the search result is at least the start index. -/
theorem search_indices_aux_lb {F : Type _} [LinearOrderedField F]
    (q : List F) (thr : F) (dirs : List (List F)) (k i : ℕ)
    (h : i ∈ search_indices_aux q thr dirs k) : k ≤ i := by
  rcases (search_indices_aux_mem q thr dirs k i).mp h with ⟨j, _, rfl, _⟩
  exact Nat.le_add_right k j

/-- The threshold-search result lists candidate labels in strictly ascending
order. -/
theorem search_indices_aux_sorted {F : Type _} [LinearOrderedField F]
    (q : List F) (thr : F) (dirs : List (List F)) :
    ∀ k : ℕ, (search_indices_aux q thr dirs k).Pairwise (· < ·) := by
  induction dirs with
  | nil => intro k; simp [search_indices_aux]
  | cons g rest ih =>
    intro k
    by_cases hg : thr ≤ dot_product q g
    · rw [search_indices_aux, if_pos hg]
      refine List.Pairwise.cons ?_ (ih (k + 1))
      intro x hx
      exact Nat.lt_of_succ_le (search_indices_aux_lb q thr rest (k + 1) x hx)
    · rw [search_indices_aux, if_neg hg]
      exact ih (k + 1)

/-- The candidate-scanning loop of the simple query is the first qualifying
vector of the buckets' concatenation, in candidate order. -/
theorem scan_buckets_eq_find {F : Type _} [LinearOrderedField F]
    (q : List F) (tbl : ℕ → Option (List (List F))) (beta : F) :
    ∀ idxs : List ℕ, scan_buckets q tbl beta idxs =
      (idxs.flatMap fun i => (tbl i).getD []).find?
        fun v => decide (beta ≤ dot_product q v) := by
  intro idxs
  induction idxs with
  | nil => rfl
  | cons i rest ih =>
    rw [List.flatMap_cons, List.find?_append]
    cases ht : tbl i with
    | none => simp [scan_buckets, ht, ih]
    | some vs =>
      cases hf : find_close_vector q vs beta with
      | none =>
        have hf' : vs.find? (fun v => decide (beta ≤ dot_product q v)) = none := hf
        simp [scan_buckets, ht, hf, ih, hf']
      | some v =>
        have hf' : vs.find? (fun v => decide (beta ≤ dot_product q v)) = some v := hf
        simp [scan_buckets, ht, hf, hf']

/-- C2: for a base index and a unit-normalized query with a non-empty
candidate set, the candidate labels are exactly the threshold-qualifying
direction indices in strictly ascending order, `query` returns the first
scanned vector meeting `beta` (buckets scanned in candidate order, each
bucket in insertion order) or `NotFound` when none qualifies, and every
`Found` outcome meets `beta`. -/
theorem claim_C2_query_first_match {F : Type _} [LinearOrderedField F]
    (dirs : List (List F)) (q : List F) (thr : F)
    (tbl : ℕ → Option (List (List F))) (beta : F) (idxs : List ℕ)
    (hnorm : is_normalized q = true)
    (hsearch : search_opt dirs q thr = some idxs) :
    idxs.Pairwise (· < ·) ∧
    (∀ i, i ∈ idxs ↔ i < dirs.length ∧ thr ≤ dot_product q (dirs.getD i [])) ∧
    simple_query dirs q thr tbl beta =
      .ok ((idxs.flatMap fun i => (tbl i).getD []).find?
        fun v => decide (beta ≤ dot_product q v)) ∧
    (∀ v, simple_query dirs q thr tbl beta = .ok (some v) → beta ≤ dot_product q v) := by
  have hidxs : idxs = search_indices dirs q thr := by
    unfold search_opt at hsearch
    by_cases he : (search_indices dirs q thr).isEmpty
    · rw [if_pos he] at hsearch; cases hsearch
    · rw [if_neg he] at hsearch; exact (Option.some.injEq _ _ ▸ hsearch).symm
  have hquery : simple_query dirs q thr tbl beta = .ok (scan_buckets q tbl beta idxs) := by
    simp [simple_query, hnorm, hsearch]
  refine ⟨?_, ?_, ?_, ?_⟩
  · rw [hidxs]; exact search_indices_aux_sorted q thr dirs 0
  · intro i; rw [hidxs]; exact search_indices_mem dirs q thr i
  · rw [hquery, scan_buckets_eq_find]
  · intro v hv
    rw [hquery] at hv
    have hscan : scan_buckets q tbl beta idxs = some v := by
      injection hv
    rw [scan_buckets_eq_find] at hscan
    have := List.find?_some hscan
    exact of_decide_eq_true this

/-- C2 witness: a concrete two-direction index over `ℚ` where the candidate
set is `[0]` and the query returns the first vector of bucket `0` whose inner
product meets `beta` (the second stored vector). -/
theorem claim_C2_witness :
    is_normalized ([1, 0, 0] : List ℚ) = true ∧
    search_opt ([[1, 0, 0], [0, 1, 0]] : List (List ℚ)) [1, 0, 0] (1 / 2) = some [0] ∧
    simple_query ([[1, 0, 0], [0, 1, 0]] : List (List ℚ)) [1, 0, 0] (1 / 2)
      (fun i => if i = 0 then some [[0, 1, 0], [1, 0, 0]] else none) (1 / 2) =
      .ok (some [1, 0, 0]) :=
  ⟨by with_unfolding_all rfl, by with_unfolding_all rfl,
    ((claim_C2_query_first_match [[1, 0, 0], [0, 1, 0]] [1, 0, 0] (1 / 2)
      (fun i => if i = 0 then some [[0, 1, 0], [1, 0, 0]] else none) (1 / 2) [0]
      (by with_unfolding_all rfl) (by with_unfolding_all rfl)).2.2.1).trans
      (by with_unfolding_all rfl)⟩

/-- C8: for `alpha` in `(0,1)` and `m ≥ 2`, the threshold equals the closed
form `alpha * sqrt(2 ln m) - sqrt(2 (1 - alpha^2) ln ln m)`, every index
variant's constructor installs exactly this threshold, and a direction is a
search candidate precisely when the inner product is at least the threshold. -/
theorem claim_C8_threshold_closed_form (alpha : ℝ) (m : ℕ)
    (_h0 : 0 < alpha) (_h1 : alpha < 1) (_hm : 2 ≤ m) :
    get_threshold alpha m =
      alpha * Real.sqrt (2 * Real.log m) -
        Real.sqrt (2 * (1 - alpha ^ 2) * Real.log (Real.log m)) ∧
    (∀ (dirs : List (List ℝ)) (q : List ℝ) (j : ℕ),
      j ∈ search_indices dirs q (get_threshold alpha m) ↔
        j < dirs.length ∧ get_threshold alpha m ≤ dot_product q (dirs.getD j [])) ∧
    (∀ (data dirs : List (List ℝ)) (beta theta : ℝ) (t : Simple.Top1 ℝ),
      Simple.Top1.new data dirs alpha beta theta = some t →
        t.threshold = get_threshold alpha dirs.length) ∧
    (∀ (data dirs : List (List ℝ)) (beta theta : ℝ) (t : Simple.CloseTop1 ℝ),
      Simple.CloseTop1.new data dirs alpha beta theta = some t →
        t.threshold = get_threshold alpha dirs.length) ∧
    (∀ (data dirs : List (List ℝ)) (beta theta : ℝ) (t : Tensor.Top1 ℝ),
      Tensor.Top1.new data dirs alpha beta theta = some t →
        t.threshold = get_threshold alpha dirs.length) := by
  refine ⟨by rw [get_threshold]; ring, ?_, ?_, ?_, ?_⟩
  · intro dirs q j; exact search_indices_mem dirs q (get_threshold alpha m) j
  · intro data dirs beta theta t ht
    cases data with
    | nil => cases ht
    | cons p ps =>
      have : t = ⟨dirs, top1_get_hash_table (p :: ps) dirs, alpha, beta,
          get_threshold alpha dirs.length, dirs.length⟩ := by
        have h' := ht
        rw [Simple.Top1.new, Simple.Top1.newCore] at h'
        exact (Option.some.injEq _ _ ▸ h').symm
      rw [this]
  · intro data dirs beta theta t ht
    cases data with
    | nil => cases ht
    | cons p ps =>
      have : t = ⟨dirs, close_hash_tableR (p :: ps) dirs, alpha, beta,
          get_threshold alpha dirs.length, dirs.length⟩ := by
        have h' := ht
        rw [Simple.CloseTop1.new] at h'
        exact (Option.some.injEq _ _ ▸ h').symm
      rw [this]
  · intro data dirs beta theta t ht
    cases data with
    | nil => cases ht
    | cons p ps =>
      rw [Tensor.Top1.new, Tensor.Top1.newCore] at ht
      rcases Option.map_eq_some'.mp ht with ⟨ml, _, hml⟩
      rw [← hml]

/-- C8 witness: the closed-form threshold identity applied at
`alpha = 1/2`, `m = 2`. -/
theorem claim_C8_witness :
    0 < (1 / 2 : ℝ) ∧ (1 / 2 : ℝ) < 1 ∧ 2 ≤ 2 ∧
    get_threshold (1 / 2) 2 =
      (1 / 2) * Real.sqrt (2 * Real.log 2) -
        Real.sqrt (2 * (1 - (1 / 2 : ℝ) ^ 2) * Real.log (Real.log 2)) :=
  ⟨one_half_pos, one_half_lt_one, le_refl 2,
    (claim_C8_threshold_closed_form (1 / 2) 2 one_half_pos one_half_lt_one (le_refl 2)).1⟩

/-- An in-bounds `getD` access yields a member of the list. -/
theorem getD_mem {α : Type _} : ∀ (l : List α) (n : ℕ), n < l.length → ∀ d : α, l.getD n d ∈ l := by
  intro l
  induction l with
  | nil => intro n h d; simp at h
  | cons a t ih =>
    intro n h d
    cases n with
    | zero => rw [List.getD_cons_zero]; exact List.mem_cons_self _ _
    | succ n' =>
      rw [List.getD_cons_succ]
      exact List.mem_cons_of_mem _ (ih n' (by simpa using h) d)

/-- Invariant of the arg-max loop of the simple `get_hash_table`: starting
from state `(v, i)` at position `k`, either no score beats `v` and the state
is unchanged, or the result is the first position (relative offset `jd`)
achieving the maximum score, all strictly earlier positions scoring strictly
less. -/
theorem top1_assign_aux_spec {F : Type _} [LinearOrderedField F]
    (p : List F) (dirs : List (List F)) :
    ∀ (k : ℕ) (v : F) (i : ℕ),
      ((∀ g ∈ dirs, dot_product p g ≤ v) ∧ top1_assign_aux p dirs k (v, i) = (v, i)) ∨
      (∃ jd, jd < dirs.length ∧
        (top1_assign_aux p dirs k (v, i)).2 = k + jd ∧
        (top1_assign_aux p dirs k (v, i)).1 = dot_product p (dirs.getD jd []) ∧
        v < (top1_assign_aux p dirs k (v, i)).1 ∧
        (∀ g ∈ dirs, dot_product p g ≤ (top1_assign_aux p dirs k (v, i)).1) ∧
        (∀ j < jd, dot_product p (dirs.getD j []) < (top1_assign_aux p dirs k (v, i)).1)) := by
  induction dirs with
  | nil => intro k v i; left; exact ⟨by simp, rfl⟩
  | cons g rest ih =>
    intro k v i
    rw [top1_assign_aux]
    by_cases hg : v < dot_product p g
    · rw [if_pos hg]
      rcases ih (k + 1) (dot_product p g) k with ⟨hall, heq⟩ | ⟨jd, hjd, h2, h1, hv, hall, hfirst⟩
      · right
        refine ⟨0, by simp, ?_, ?_, ?_, ?_, ?_⟩
        · simp [heq]
        · simp [heq]
        · simpa [heq] using hg
        · intro g' hg'
          rcases List.mem_cons.mp hg' with rfl | hmem
          · simp [heq]
          · simpa [heq] using hall g' hmem
        · intro j hj; exact absurd hj (Nat.not_lt_zero j)
      · right
        refine ⟨jd + 1, by simpa using Nat.succ_lt_succ hjd, by omega, ?_, ?_, ?_, ?_⟩
        · rw [h1, List.getD_cons_succ]
        · exact lt_trans hg hv
        · intro g' hg'
          rcases List.mem_cons.mp hg' with rfl | hmem
          · exact le_of_lt hv
          · exact hall g' hmem
        · intro j hj
          cases j with
          | zero => rw [List.getD_cons_zero]; exact hv
          | succ j' =>
            rw [List.getD_cons_succ]
            exact hfirst j' (Nat.lt_of_succ_lt_succ hj)
    · rw [if_neg hg]
      have hgle : dot_product p g ≤ v := not_lt.mp hg
      rcases ih (k + 1) v i with ⟨hall, heq⟩ | ⟨jd, hjd, h2, h1, hv, hall, hfirst⟩
      · left
        refine ⟨?_, heq⟩
        intro g' hg'
        rcases List.mem_cons.mp hg' with rfl | hmem
        · exact hgle
        · exact hall g' hmem
      · right
        refine ⟨jd + 1, by simpa using Nat.succ_lt_succ hjd, by omega, ?_, hv, ?_, ?_⟩
        · rw [h1, List.getD_cons_succ]
        · intro g' hg'
          rcases List.mem_cons.mp hg' with rfl | hmem
          · exact le_of_lt (lt_of_le_of_lt hgle hv)
          · exact hall g' hmem
        · intro j hj
          cases j with
          | zero => rw [List.getD_cons_zero]; exact lt_of_le_of_lt hgle hv
          | succ j' =>
            rw [List.getD_cons_succ]
            exact hfirst j' (Nat.lt_of_succ_lt_succ hj)

/-- Arg-max assignment of the simple bucket table: given directions whose
scores all exceed the `f64::MIN` sentinel, the assigned index is in range,
achieves the maximum inner product, and is the lowest index achieving it. -/
theorem top1_assign_spec {F : Type _} [LinearOrderedField F]
    (p : List F) (dirs : List (List F)) (hne : dirs ≠ [])
    (hlb : ∀ g ∈ dirs, f64MIN < dot_product p g) :
    top1_assign p dirs < dirs.length ∧
    (∀ j < dirs.length,
      dot_product p (dirs.getD j []) ≤ dot_product p (dirs.getD (top1_assign p dirs) [])) ∧
    (∀ j < top1_assign p dirs,
      dot_product p (dirs.getD j []) < dot_product p (dirs.getD (top1_assign p dirs) [])) := by
  rcases top1_assign_aux_spec p dirs 0 f64MIN 0 with ⟨hall, _⟩ | ⟨jd, hjd, h2, h1, _, hall, hfirst⟩
  · cases dirs with
    | nil => exact absurd rfl hne
    | cons g rest =>
      exact absurd (hall g (List.mem_cons_self _ _)) (not_le.mpr (hlb g (List.mem_cons_self _ _)))
  · have hassign : top1_assign p dirs = jd := by
      rw [top1_assign, h2, Nat.zero_add]
    refine ⟨hassign ▸ hjd, ?_, ?_⟩
    · intro j hj
      rw [hassign, ← h1]
      exact hall _ (getD_mem dirs j hj [])
    · intro j hj
      rw [hassign, ← h1]
      exact hfirst j (hassign ▸ hj)

/-- Invariant of the fold underlying `Iterator::max_by`: starting from state
`(i, v)` at position `k`, either every score is strictly below `v` and the
state is unchanged, or the result is the last position (relative offset `jd`)
achieving the maximum score, all strictly later positions scoring strictly
less. -/
theorem max_by_aux_spec {F : Type _} [LinearOrderedField F]
    (p : List F) (dirs : List (List F)) :
    ∀ (k i : ℕ) (v : F),
      ((∀ g ∈ dirs, dot_product p g < v) ∧ max_by_aux p dirs k (i, v) = (i, v)) ∨
      (∃ jd, jd < dirs.length ∧
        (max_by_aux p dirs k (i, v)).1 = k + jd ∧
        (max_by_aux p dirs k (i, v)).2 = dot_product p (dirs.getD jd []) ∧
        v ≤ (max_by_aux p dirs k (i, v)).2 ∧
        (∀ g ∈ dirs, dot_product p g ≤ (max_by_aux p dirs k (i, v)).2) ∧
        (∀ j, jd < j → j < dirs.length →
          dot_product p (dirs.getD j []) < (max_by_aux p dirs k (i, v)).2)) := by
  induction dirs with
  | nil => intro k i v; left; exact ⟨by simp, rfl⟩
  | cons g rest ih =>
    intro k i v
    rw [max_by_aux]
    by_cases hg : v ≤ dot_product p g
    · rw [if_pos hg]
      rcases ih (k + 1) k (dot_product p g) with ⟨hall, heq⟩ | ⟨jd, hjd, h1, h2, hv, hall, hlast⟩
      · right
        refine ⟨0, by simp, ?_, ?_, ?_, ?_, ?_⟩
        · simp [heq]
        · simp [heq]
        · simpa [heq] using hg
        · intro g' hg'
          rcases List.mem_cons.mp hg' with rfl | hmem
          · simp [heq]
          · simpa [heq] using le_of_lt (hall g' hmem)
        · intro j hj0 hjlen
          cases j with
          | zero => exact absurd hj0 (lt_irrefl 0)
          | succ j' =>
            rw [List.getD_cons_succ, heq]
            exact hall _ (getD_mem rest j' (Nat.lt_of_succ_lt_succ hjlen) [])
      · right
        refine ⟨jd + 1, by simpa using Nat.succ_lt_succ hjd, by omega, ?_, ?_, ?_, ?_⟩
        · rw [h2, List.getD_cons_succ]
        · exact le_trans hg hv
        · intro g' hg'
          rcases List.mem_cons.mp hg' with rfl | hmem
          · exact hv
          · exact hall g' hmem
        · intro j hj0 hjlen
          cases j with
          | zero => exact absurd hj0 (Nat.not_lt_zero _)
          | succ j' =>
            rw [List.getD_cons_succ]
            exact hlast j' (Nat.lt_of_succ_lt_succ hj0) (Nat.lt_of_succ_lt_succ hjlen)
    · rw [if_neg hg]
      have hglt : dot_product p g < v := not_le.mp hg
      rcases ih (k + 1) i v with ⟨hall, heq⟩ | ⟨jd, hjd, h1, h2, hv, hall, hlast⟩
      · left
        refine ⟨?_, heq⟩
        intro g' hg'
        rcases List.mem_cons.mp hg' with rfl | hmem
        · exact hglt
        · exact hall g' hmem
      · right
        refine ⟨jd + 1, by simpa using Nat.succ_lt_succ hjd, by omega, ?_, hv, ?_, ?_⟩
        · rw [h2, List.getD_cons_succ]
        · intro g' hg'
          rcases List.mem_cons.mp hg' with rfl | hmem
          · exact le_of_lt (lt_of_lt_of_le hglt hv)
          · exact hall g' hmem
        · intro j hj0 hjlen
          cases j with
          | zero => exact absurd hj0 (Nat.not_lt_zero _)
          | succ j' =>
            rw [List.getD_cons_succ]
            exact hlast j' (Nat.lt_of_succ_lt_succ hj0) (Nat.lt_of_succ_lt_succ hjlen)

/-- Match-list assignment of the tensor base index: the assigned index is in
range, achieves the maximum inner product, and is the highest (last) index
achieving it, since Rust's `max_by` keeps the later of two equal elements. -/
theorem match_index_spec {F : Type _} [LinearOrderedField F]
    (p : List F) (dirs : List (List F)) (hne : dirs ≠ []) :
    ∃ i, match_index p dirs = some i ∧ i < dirs.length ∧
      (∀ j < dirs.length,
        dot_product p (dirs.getD j []) ≤ dot_product p (dirs.getD i [])) ∧
      (∀ j, i < j → j < dirs.length →
        dot_product p (dirs.getD j []) < dot_product p (dirs.getD i [])) := by
  cases dirs with
  | nil => exact absurd rfl hne
  | cons g rest =>
    rcases max_by_aux_spec p rest 1 0 (dot_product p g) with
      ⟨hall, heq⟩ | ⟨jd, hjd, h1, h2, hv, hall, hlast⟩
    · refine ⟨0, ?_, by simp, ?_, ?_⟩
      · rw [match_index, heq]
      · intro j hj
        cases j with
        | zero => exact le_refl _
        | succ j' =>
          rw [List.getD_cons_succ, List.getD_cons_zero]
          exact le_of_lt (hall _ (getD_mem rest j' (Nat.lt_of_succ_lt_succ hj) []))
      · intro j hj0 hjlen
        cases j with
        | zero => exact absurd hj0 (lt_irrefl 0)
        | succ j' =>
          rw [List.getD_cons_succ, List.getD_cons_zero]
          exact hall _ (getD_mem rest j' (Nat.lt_of_succ_lt_succ hjlen) [])
    · refine ⟨jd + 1, ?_, by simpa using Nat.succ_lt_succ hjd, ?_, ?_⟩
      · rw [match_index, h1, Nat.add_comm 1 jd]
      · intro j hj
        have hval : dot_product p ((g :: rest).getD (jd + 1) []) =
            (max_by_aux p rest 1 (0, dot_product p g)).2 := by
          rw [List.getD_cons_succ, h2]
        rw [hval]
        cases j with
        | zero => exact hv
        | succ j' =>
          rw [List.getD_cons_succ]
          exact hall _ (getD_mem rest j' (Nat.lt_of_succ_lt_succ hj) [])
      · intro j hj0 hjlen
        have hval : dot_product p ((g :: rest).getD (jd + 1) []) =
            (max_by_aux p rest 1 (0, dot_product p g)).2 := by
          rw [List.getD_cons_succ, h2]
        rw [hval]
        cases j with
        | zero => exact absurd hj0 (Nat.not_lt_zero _)
        | succ j' =>
          rw [List.getD_cons_succ]
          exact hlast j' (Nat.lt_of_succ_lt_succ hj0) (Nat.lt_of_succ_lt_succ hjlen)

/-- Negativity of the `f64::MIN` sentinel, proved without evaluating the
huge powers. -/
theorem f64MIN_neg {F : Type _} [LinearOrderedField F] : (f64MIN : F) < 0 := by
  have h2 : (2 : F) ^ (971 : ℕ) < (2 : F) ^ (1024 : ℕ) :=
    pow_lt_pow_right₀ one_lt_two (by norm_num)
  rw [f64MIN]; linarith

/-- C4 (amended): the simple bucket-table construction assigns each data
vector to the lowest direction index achieving the maximum inner product
(strict-`>` update keeps the first maximum), whereas the tensor match-list
construction assigns the highest such index (`max_by` keeps the last
maximum); on the claim's example data and directions both give `[0, 1]`. -/
theorem claim_C4_argmax_assignment {F : Type _} [LinearOrderedField F]
    (p : List F) (dirs : List (List F)) (hne : dirs ≠ [])
    (hlb : ∀ g ∈ dirs, f64MIN < dot_product p g) :
    (top1_assign p dirs < dirs.length ∧
      (∀ j < dirs.length,
        dot_product p (dirs.getD j []) ≤ dot_product p (dirs.getD (top1_assign p dirs) [])) ∧
      (∀ j < top1_assign p dirs,
        dot_product p (dirs.getD j []) < dot_product p (dirs.getD (top1_assign p dirs) []))) ∧
    (∃ i, match_index p dirs = some i ∧ i < dirs.length ∧
      (∀ j < dirs.length,
        dot_product p (dirs.getD j []) ≤ dot_product p (dirs.getD i [])) ∧
      (∀ j, i < j → j < dirs.length →
        dot_product p (dirs.getD j []) < dot_product p (dirs.getD i []))) ∧
    top1_assign ([1, 0, 0] : List ℚ) [[1, 0, 0], [1 / 2, 1 / 2, 0]] = 0 ∧
    top1_assign ([0, 1, 0] : List ℚ) [[1, 0, 0], [1 / 2, 1 / 2, 0]] = 1 ∧
    get_match_list ([[1, 0, 0], [0, 1, 0]] : List (List ℚ)) [[1, 0, 0], [1 / 2, 1 / 2, 0]] =
      some [0, 1] := by
  refine ⟨top1_assign_spec p dirs hne hlb, match_index_spec p dirs hne, ?_, ?_,
    by with_unfolding_all rfl⟩
  · have e1 : dot_product ([1, 0, 0] : List ℚ) [1, 0, 0] = 1 := by with_unfolding_all rfl
    have e2 : dot_product ([1, 0, 0] : List ℚ) [1 / 2, 1 / 2, 0] = 1 / 2 := by
      with_unfolding_all rfl
    have hlbA : ∀ g ∈ ([[1, 0, 0], [1 / 2, 1 / 2, 0]] : List (List ℚ)),
        f64MIN < dot_product [1, 0, 0] g := by
      intro g hg
      rcases List.mem_cons.mp hg with rfl | hg'
      · rw [e1]; exact lt_trans f64MIN_neg one_pos
      · rcases List.mem_cons.mp hg' with rfl | h0
        · rw [e2]; exact lt_trans f64MIN_neg (by norm_num)
        · cases h0
    obtain ⟨hlt, hmax, _⟩ :=
      top1_assign_spec ([1, 0, 0] : List ℚ) [[1, 0, 0], [1 / 2, 1 / 2, 0]] (by simp) hlbA
    have hlt2 : top1_assign ([1, 0, 0] : List ℚ) [[1, 0, 0], [1 / 2, 1 / 2, 0]] < 2 := hlt
    rcases (by omega :
        top1_assign ([1, 0, 0] : List ℚ) [[1, 0, 0], [1 / 2, 1 / 2, 0]] = 0 ∨
        top1_assign ([1, 0, 0] : List ℚ) [[1, 0, 0], [1 / 2, 1 / 2, 0]] = 1) with h | h
    · exact h
    · exfalso
      have hm := hmax 0 (by decide)
      rw [h] at hm
      simp only [List.getD_cons_zero, List.getD_cons_succ] at hm
      rw [e1, e2] at hm
      norm_num at hm
  · have e1 : dot_product ([0, 1, 0] : List ℚ) [1, 0, 0] = 0 := by with_unfolding_all rfl
    have e2 : dot_product ([0, 1, 0] : List ℚ) [1 / 2, 1 / 2, 0] = 1 / 2 := by
      with_unfolding_all rfl
    have hlbB : ∀ g ∈ ([[1, 0, 0], [1 / 2, 1 / 2, 0]] : List (List ℚ)),
        f64MIN < dot_product [0, 1, 0] g := by
      intro g hg
      rcases List.mem_cons.mp hg with rfl | hg'
      · rw [e1]; exact f64MIN_neg
      · rcases List.mem_cons.mp hg' with rfl | h0
        · rw [e2]; exact lt_trans f64MIN_neg (by norm_num)
        · cases h0
    obtain ⟨hlt, hmax, _⟩ :=
      top1_assign_spec ([0, 1, 0] : List ℚ) [[1, 0, 0], [1 / 2, 1 / 2, 0]] (by simp) hlbB
    have hlt2 : top1_assign ([0, 1, 0] : List ℚ) [[1, 0, 0], [1 / 2, 1 / 2, 0]] < 2 := hlt
    rcases (by omega :
        top1_assign ([0, 1, 0] : List ℚ) [[1, 0, 0], [1 / 2, 1 / 2, 0]] = 0 ∨
        top1_assign ([0, 1, 0] : List ℚ) [[1, 0, 0], [1 / 2, 1 / 2, 0]] = 1) with h | h
    · exfalso
      have hm := hmax 1 (by decide)
      rw [h] at hm
      simp only [List.getD_cons_zero, List.getD_cons_succ] at hm
      rw [e1, e2] at hm
      norm_num at hm
    · exact h

/-- C4 counterexample: with one data point `[1,0,0]` and the duplicated
directions `[[1,0,0],[1,0,0]]`, both directions tie for the maximum inner
product `1`, yet the tensor match-list construction records index `1`, not
the lowest index `0` chosen by the simple construction — refuting the claim
that ties break to the lowest index in both constructions. -/
theorem claim_C4_counterexample :
    get_match_list ([[1, 0, 0]] : List (List ℚ)) [[1, 0, 0], [1, 0, 0]] = some [1] ∧
    get_match_list ([[1, 0, 0]] : List (List ℚ)) [[1, 0, 0], [1, 0, 0]] ≠ some [0] ∧
    dot_product ([1, 0, 0] : List ℚ) ([[1, 0, 0], [1, 0, 0]].getD 0 []) = 1 ∧
    dot_product ([1, 0, 0] : List ℚ) ([[1, 0, 0], [1, 0, 0]].getD 1 []) = 1 ∧
    top1_assign ([1, 0, 0] : List ℚ) [[1, 0, 0], [1, 0, 0]] = 0 := by
  have h1 : get_match_list ([[1, 0, 0]] : List (List ℚ)) [[1, 0, 0], [1, 0, 0]] = some [1] := by
    with_unfolding_all rfl
  have e1 : dot_product ([1, 0, 0] : List ℚ) [1, 0, 0] = 1 := by with_unfolding_all rfl
  have hlbC : ∀ g ∈ ([[1, 0, 0], [1, 0, 0]] : List (List ℚ)),
      f64MIN < dot_product [1, 0, 0] g := by
    intro g hg
    rcases List.mem_cons.mp hg with rfl | hg'
    · rw [e1]; exact lt_trans f64MIN_neg one_pos
    · rcases List.mem_cons.mp hg' with rfl | h0
      · rw [e1]; exact lt_trans f64MIN_neg one_pos
      · cases h0
  refine ⟨h1, ?_, by simp [e1], by simp [e1], ?_⟩
  · rw [h1]; simp
  · obtain ⟨hlt, _, hlow⟩ :=
      top1_assign_spec ([1, 0, 0] : List ℚ) [[1, 0, 0], [1, 0, 0]] (by simp) hlbC
    have hlt2 : top1_assign ([1, 0, 0] : List ℚ) [[1, 0, 0], [1, 0, 0]] < 2 := hlt
    rcases (by omega :
        top1_assign ([1, 0, 0] : List ℚ) [[1, 0, 0], [1, 0, 0]] = 0 ∨
        top1_assign ([1, 0, 0] : List ℚ) [[1, 0, 0], [1, 0, 0]] = 1) with h | h
    · exact h
    · exfalso
      have hm := hlow 0 (by rw [h]; decide)
      rw [h] at hm
      simp only [List.getD_cons_zero, List.getD_cons_succ] at hm
      rw [e1] at hm
      exact lt_irrefl _ hm

/-- C4 witness: the amended characterization applied to the claim's concrete
example point `[1,0,0]` with directions `[[1,0,0],[1/2,1/2,0]]` over `ℚ`. -/
theorem claim_C4_witness :
    ([[1, 0, 0], [1 / 2, 1 / 2, 0]] : List (List ℚ)) ≠ [] ∧
    (∀ g ∈ ([[1, 0, 0], [1 / 2, 1 / 2, 0]] : List (List ℚ)),
      f64MIN < dot_product [1, 0, 0] g) ∧
    top1_assign ([1, 0, 0] : List ℚ) [[1, 0, 0], [1 / 2, 1 / 2, 0]] <
      ([[1, 0, 0], [1 / 2, 1 / 2, 0]] : List (List ℚ)).length := by
  have hne : ([[1, 0, 0], [1 / 2, 1 / 2, 0]] : List (List ℚ)) ≠ [] := by simp
  have hlb : ∀ g ∈ ([[1, 0, 0], [1 / 2, 1 / 2, 0]] : List (List ℚ)),
      f64MIN < dot_product [1, 0, 0] g := by
    intro g hg
    rcases List.mem_cons.mp hg with rfl | hg'
    · have hd : dot_product ([1, 0, 0] : List ℚ) [1, 0, 0] = 1 := by with_unfolding_all rfl
      rw [hd]; exact lt_trans f64MIN_neg one_pos
    · rcases List.mem_cons.mp hg' with rfl | hg''
      · have hd : dot_product ([1, 0, 0] : List ℚ) [1 / 2, 1 / 2, 0] = 1 / 2 := by
          with_unfolding_all rfl
        rw [hd]; exact lt_trans f64MIN_neg (by norm_num)
      · cases hg''
  exact ⟨hne, hlb,
    (claim_C4_argmax_assignment ([1, 0, 0] : List ℚ) [[1, 0, 0], [1 / 2, 1 / 2, 0]]
      hne hlb).1.1⟩

/-- Characterization of the generic bucket-table fold: the final bucket at
key `k` is the initial bucket extended by the assigned points in data order,
and is untouched when no point is assigned to `k`. -/
theorem build_table_spec {F : Type _} [LinearOrderedField F] {K : Type _} [DecidableEq K]
    (assign : List F → Option K) :
    ∀ (ps : List (List F)) (tbl : K → Option (List (List F))) (k : K),
      build_table assign ps tbl k =
        if (ps.filter fun p => decide (assign p = some k)) = [] then tbl k
        else some ((tbl k).getD [] ++ ps.filter fun p => decide (assign p = some k)) := by
  intro ps
  induction ps with
  | nil => intro tbl k; simp [build_table]
  | cons p ps ih =>
    intro tbl k
    rw [build_table]
    cases ha : assign p with
    | none =>
      have hfilter : ((p :: ps).filter fun p => decide (assign p = some k)) =
          ps.filter fun p => decide (assign p = some k) := by
        simp [List.filter_cons, ha]
      rw [hfilter, ih]
    | some k0 =>
      by_cases hk : k0 = k
      · subst hk
        have hfilter : ((p :: ps).filter fun p => decide (assign p = some k0)) =
            p :: ps.filter fun p => decide (assign p = some k0) := by
          simp [List.filter_cons, ha]
        have htbl : bucket_insert tbl k0 p k0 = some ((tbl k0).getD [] ++ [p]) := by
          simp [bucket_insert]
        rw [hfilter, ih (bucket_insert tbl k0 p) k0]
        by_cases hemp : (ps.filter fun p => decide (assign p = some k0)) = []
        · rw [if_pos hemp, if_neg (by simp), hemp, htbl]
        · rw [if_neg hemp, if_neg (by simp), htbl]
          simp
      · have hfilter : ((p :: ps).filter fun p => decide (assign p = some k)) =
            ps.filter fun p => decide (assign p = some k) := by
          simp [List.filter_cons, ha, hk]
        have htbl : bucket_insert tbl k0 p k = tbl k := by
          simp [bucket_insert, Ne.symm hk]
        rw [hfilter, ih (bucket_insert tbl k0 p) k, htbl]

/-- The corridor assignment returns `some i` exactly for the first direction
index whose inner product lies in `[left, right]`, offset by the running
start index. -/
theorem corridor_assign_aux_eq_some {F : Type _} [LinearOrderedField F]
    (p : List F) (left right : F) :
    ∀ (dirs : List (List F)) (k i : ℕ),
      corridor_assign_aux p left right dirs k = some i ↔
        ∃ j, j < dirs.length ∧ i = k + j ∧
          (left ≤ dot_product p (dirs.getD j []) ∧
            dot_product p (dirs.getD j []) ≤ right) ∧
          ∀ j' < j, ¬ (left ≤ dot_product p (dirs.getD j' []) ∧
            dot_product p (dirs.getD j' []) ≤ right) := by
  intro dirs
  induction dirs with
  | nil => intro k i; simp [corridor_assign_aux]
  | cons g rest ih =>
    intro k i
    by_cases hg : left ≤ dot_product p g ∧ dot_product p g ≤ right
    · rw [corridor_assign_aux, if_pos hg]
      constructor
      · intro hi
        refine ⟨0, by simp, ?_, by simpa using hg, ?_⟩
        · have := Option.some.inj hi
          omega
        · intro j' hj'; exact absurd hj' (Nat.not_lt_zero j')
      · rintro ⟨j, hj, rfl, hin, hfirst⟩
        cases j with
        | zero => rfl
        | succ j' =>
          exact absurd (by simpa using hg) (hfirst 0 (Nat.succ_pos j'))
    · rw [corridor_assign_aux, if_neg hg]
      rw [ih (k + 1) i]
      constructor
      · rintro ⟨j, hj, hij, hin, hfirst⟩
        refine ⟨j + 1, by simpa using Nat.succ_lt_succ hj, by omega, by simpa using hin, ?_⟩
        intro j' hj'
        cases j' with
        | zero => simpa using hg
        | succ j'' =>
          rw [List.getD_cons_succ]
          exact hfirst j'' (Nat.lt_of_succ_lt_succ hj')
      · rintro ⟨j, hj, rfl, hin, hfirst⟩
        cases j with
        | zero => exact absurd (by simpa using hin) hg
        | succ j' =>
          refine ⟨j', Nat.lt_of_succ_lt_succ (by simpa using hj), by omega,
            by simpa using hin, ?_⟩
          intro j'' hj''
          have := hfirst (j'' + 1) (Nat.succ_lt_succ hj'')
          simpa using this

/-- The corridor assignment returns `none` exactly when no direction's inner
product lies in the corridor. -/
theorem corridor_assign_aux_eq_none {F : Type _} [LinearOrderedField F]
    (p : List F) (left right : F) :
    ∀ (dirs : List (List F)) (k : ℕ),
      corridor_assign_aux p left right dirs k = none ↔
        ∀ j < dirs.length, ¬ (left ≤ dot_product p (dirs.getD j []) ∧
          dot_product p (dirs.getD j []) ≤ right) := by
  intro dirs
  induction dirs with
  | nil => intro k; simp [corridor_assign_aux]
  | cons g rest ih =>
    intro k
    by_cases hg : left ≤ dot_product p g ∧ dot_product p g ≤ right
    · rw [corridor_assign_aux, if_pos hg]
      refine iff_of_false (by simp) ?_
      intro hall
      exact hall 0 (Nat.succ_pos _) (by simpa using hg)
    · rw [corridor_assign_aux, if_neg hg]
      rw [ih (k + 1)]
      constructor
      · intro h j hj
        cases j with
        | zero => simpa using hg
        | succ j' =>
          rw [List.getD_cons_succ]
          exact h j' (Nat.lt_of_succ_lt_succ hj)
      · intro h j hj
        have := h (j + 1) (Nat.succ_lt_succ hj)
        simpa using this

/-- C6: with `right = sqrt(2 ln m)` and
`left = right - (3/2) ln(ln m) / right`, every data point of the corridor
bucket table is inserted exactly under the first direction index whose inner
product lies in `[left, right]` (once per data occurrence, in data order),
and a point for which no direction qualifies appears in no bucket. -/
theorem claim_C6_corridor_assignment (data dirs : List (List ℝ)) :
    close_left dirs.length =
      close_right dirs.length -
        3 / 2 * (Real.log (Real.log dirs.length) / close_right dirs.length) ∧
    (∀ i, close_hash_tableR data dirs i =
      if (data.filter fun p => decide (corridor_assign p (close_left dirs.length)
            (close_right dirs.length) dirs = some i)) = [] then none
      else some (data.filter fun p => decide (corridor_assign p (close_left dirs.length)
            (close_right dirs.length) dirs = some i))) ∧
    (∀ (p : List ℝ) (i : ℕ),
      corridor_assign p (close_left dirs.length) (close_right dirs.length) dirs = some i ↔
        i < dirs.length ∧
        (close_left dirs.length ≤ dot_product p (dirs.getD i []) ∧
          dot_product p (dirs.getD i []) ≤ close_right dirs.length) ∧
        ∀ j < i, ¬ (close_left dirs.length ≤ dot_product p (dirs.getD j []) ∧
          dot_product p (dirs.getD j []) ≤ close_right dirs.length)) ∧
    (∀ p : List ℝ,
      corridor_assign p (close_left dirs.length) (close_right dirs.length) dirs = none ↔
        ∀ j < dirs.length, ¬ (close_left dirs.length ≤ dot_product p (dirs.getD j []) ∧
          dot_product p (dirs.getD j []) ≤ close_right dirs.length)) ∧
    (∀ p : List ℝ,
      corridor_assign p (close_left dirs.length) (close_right dirs.length) dirs = none →
        ∀ i bucket, close_hash_tableR data dirs i = some bucket → p ∉ bucket) := by
  have htbl : ∀ i, close_hash_tableR data dirs i =
      if (data.filter fun p => decide (corridor_assign p (close_left dirs.length)
            (close_right dirs.length) dirs = some i)) = [] then none
      else some (data.filter fun p => decide (corridor_assign p (close_left dirs.length)
            (close_right dirs.length) dirs = some i)) := by
    intro i
    rw [close_hash_tableR, close_get_hash_table, build_table_spec]
    by_cases hemp : (data.filter fun p => decide (corridor_assign p (close_left dirs.length)
        (close_right dirs.length) dirs = some i)) = []
    · rw [if_pos hemp, if_pos hemp]
    · rw [if_neg hemp, if_neg hemp]
      simp
  refine ⟨by rw [close_left, close_right], htbl, ?_, ?_, ?_⟩
  · intro p i
    rw [corridor_assign, corridor_assign_aux_eq_some]
    constructor
    · rintro ⟨j, hj, rfl, hin, hfirst⟩
      simp only [Nat.zero_add]
      exact ⟨hj, hin, hfirst⟩
    · rintro ⟨hi, hin, hfirst⟩
      exact ⟨i, hi, (Nat.zero_add i).symm, hin, hfirst⟩
  · intro p
    rw [corridor_assign, corridor_assign_aux_eq_none]
  · intro p hnone i bucket hb hmem
    rw [htbl i] at hb
    by_cases hemp : (data.filter fun q => decide (corridor_assign q (close_left dirs.length)
        (close_right dirs.length) dirs = some i)) = []
    · rw [if_pos hemp] at hb; cases hb
    · rw [if_neg hemp] at hb
      have hbucket : bucket = data.filter fun q => decide (corridor_assign q
          (close_left dirs.length) (close_right dirs.length) dirs = some i) :=
        (Option.some.injEq _ _ ▸ hb).symm
      rw [hbucket] at hmem
      have hdec := (List.mem_filter.mp hmem).2
      have hsome : corridor_assign p (close_left dirs.length) (close_right dirs.length)
          dirs = some i := of_decide_eq_true hdec
      rw [hnone] at hsome
      cases hsome

/-- An in-bounds `get?` access yields `some` of the `getD` value. -/
theorem get?_eq_some_getD {α : Type _} :
    ∀ (l : List α) (i : ℕ), i < l.length → ∀ d : α, l.get? i = some (l.getD i d) := by
  intro l
  induction l with
  | nil => intro i h d; simp at h
  | cons a t ih =>
    intro i h d
    cases i with
    | zero => rw [List.getD_cons_zero]; rfl
    | succ i' =>
      rw [List.get?_cons_succ, List.getD_cons_succ]
      exact ih i' (by simpa using h) d

/-- Mapping `hash` over the substructures succeeds and produces the rendered
`label#` strings when every match list is long enough. -/
theorem mapM_hash_eq {F : Type _} [LinearOrderedField F] (i : ℕ) :
    ∀ list : List (Tensor.Top1 F), (∀ t ∈ list, i < t.match_list.length) →
      (list.mapM fun t => Tensor.Top1.hash t i) =
        some (list.map fun t => toString (t.match_list.getD i 0) ++ "#") := by
  intro list
  induction list with
  | nil => intro h; rfl
  | cons t ts ih =>
    intro h
    have hh : Tensor.Top1.hash t i = some (toString (t.match_list.getD i 0) ++ "#") := by
      rw [Tensor.Top1.hash, get?_eq_some_getD _ _ (h t (List.mem_cons_self _ _)) 0]
      rfl
    rw [List.mapM_cons, hh, ih fun t' ht' => h t' (List.mem_cons_of_mem _ ht')]
    rfl

/-- The composite key of an in-range data point is defined and equals the
ordered concatenation of the per-substructure `label#` strings. -/
theorem key_eq_keyD {F : Type _} [LinearOrderedField F]
    (list : List (Tensor.Top1 F)) (i : ℕ) (h : ∀ t ∈ list, i < t.match_list.length) :
    Tensor.key list i = some (Tensor.keyD list i) := by
  rw [Tensor.key, mapM_hash_eq i list h]
  rfl

/-- Characterization of the composite-table fold: when every key in range is
defined, the built table extends the initial bucket at each key by the data
points whose composite key equals it, in data order. -/
theorem tensor_get_hash_table_aux_spec {F : Type _} [LinearOrderedField F]
    (list : List (Tensor.Top1 F)) :
    ∀ (ps : List (List F)) (i0 : ℕ) (tbl : String → Option (List (List F))),
      (∀ j < ps.length, Tensor.key list (i0 + j) = some (Tensor.keyD list (i0 + j))) →
      Tensor.get_hash_table_aux list ps i0 tbl =
        some (fun k =>
          if Tensor.keyed_points list ps i0 k = [] then tbl k
          else some ((tbl k).getD [] ++ Tensor.keyed_points list ps i0 k)) := by
  intro ps
  induction ps with
  | nil =>
    intro i0 tbl _
    rw [Tensor.get_hash_table_aux]
    exact congrArg some (funext fun k => by rw [Tensor.keyed_points, if_pos rfl])
  | cons p ps ih =>
    intro i0 tbl h
    have hk0 : Tensor.key list i0 = some (Tensor.keyD list i0) := by
      have h0 := h 0 (Nat.succ_pos _)
      simpa using h0
    have hstep : Tensor.get_hash_table_aux list (p :: ps) i0 tbl =
        Tensor.get_hash_table_aux list ps (i0 + 1)
          (bucket_insert tbl (Tensor.keyD list i0) p) := by
      rw [Tensor.get_hash_table_aux, hk0]
    rw [hstep, ih (i0 + 1) (bucket_insert tbl (Tensor.keyD list i0) p) fun j hj => by
      have h' := h (j + 1) (Nat.succ_lt_succ hj)
      rwa [show i0 + (j + 1) = i0 + 1 + j by omega] at h']
    apply congrArg some
    funext k
    rw [Tensor.keyed_points]
    by_cases hkk : Tensor.keyD list i0 = k
    · rw [if_pos hkk, if_neg (List.cons_ne_nil _ _)]
      have htbl' : bucket_insert tbl (Tensor.keyD list i0) p k =
          some ((tbl k).getD [] ++ [p]) := by
        simp [bucket_insert, hkk]
      by_cases hemp : Tensor.keyed_points list ps (i0 + 1) k = []
      · rw [if_pos hemp, htbl', hemp]
      · rw [if_neg hemp, htbl']
        simp
    · rw [if_neg hkk]
      have htbl' : bucket_insert tbl (Tensor.keyD list i0) p k = tbl k := by
        simp [bucket_insert, Ne.symm hkk]
      rw [htbl']

/-- C9: when every substructure's match list covers the dataset (as holds for
substructures built over the same data), each data point's composite key is
the ordered concatenation of the per-substructure labels rendered as
`label#`, and the composite table maps each key to exactly the data points
sharing that key, in data order (`none` for untouched keys). -/
theorem claim_C9_composite_keys {F : Type _} [LinearOrderedField F]
    (data : List (List F)) (top1_list : List (Tensor.Top1 F))
    (hlen : ∀ t ∈ top1_list, t.match_list.length = data.length) :
    (∀ i < data.length, Tensor.key top1_list i =
      some (String.join (top1_list.map fun t => toString (t.match_list.getD i 0) ++ "#"))) ∧
    Tensor.get_hash_table data top1_list =
      some (fun k =>
        if Tensor.keyed_points top1_list data 0 k = [] then none
        else some (Tensor.keyed_points top1_list data 0 k)) := by
  have hkey : ∀ i < data.length, Tensor.key top1_list i = some (Tensor.keyD top1_list i) := by
    intro i hi
    refine key_eq_keyD top1_list i fun t ht => ?_
    rw [hlen t ht]
    exact hi
  refine ⟨fun i hi => hkey i hi, ?_⟩
  rw [Tensor.get_hash_table,
    tensor_get_hash_table_aux_spec top1_list data 0 (fun _ => none) fun j hj => by
      simpa using hkey j hj]
  apply congrArg some
  funext k
  by_cases hemp : Tensor.keyed_points top1_list data 0 k = []
  · rw [if_pos hemp, if_pos hemp]
  · rw [if_neg hemp, if_neg hemp]
    simp

/-- C9 witness: two substructures with match lists `[0,1]` and `[1,1]` over a
two-point dataset; the composite table maps `"0#1#"` to the first point and
`"1#1#"` to the second. -/
theorem claim_C9_witness :
    (∀ t ∈ ([⟨[], [0, 1], 0⟩, ⟨[], [1, 1], 0⟩] : List (Tensor.Top1 ℚ)),
      t.match_list.length = ([[1, 0, 0], [0, 1, 0]] : List (List ℚ)).length) ∧
    Tensor.get_hash_table ([[1, 0, 0], [0, 1, 0]] : List (List ℚ))
        [⟨[], [0, 1], 0⟩, ⟨[], [1, 1], 0⟩] =
      some (fun k =>
        if Tensor.keyed_points ([⟨[], [0, 1], 0⟩, ⟨[], [1, 1], 0⟩] : List (Tensor.Top1 ℚ))
            [[1, 0, 0], [0, 1, 0]] 0 k = [] then none
        else some (Tensor.keyed_points ([⟨[], [0, 1], 0⟩, ⟨[], [1, 1], 0⟩] :
            List (Tensor.Top1 ℚ)) [[1, 0, 0], [0, 1, 0]] 0 k)) := by
  have hlen : ∀ t ∈ ([⟨[], [0, 1], 0⟩, ⟨[], [1, 1], 0⟩] : List (Tensor.Top1 ℚ)),
      t.match_list.length = ([[1, 0, 0], [0, 1, 0]] : List (List ℚ)).length := by
    intro t ht
    rcases List.mem_cons.mp ht with rfl | ht'
    · rfl
    · rcases List.mem_cons.mp ht' with rfl | h0
      · rfl
      · cases h0
  exact ⟨hlen, (claim_C9_composite_keys [[1, 0, 0], [0, 1, 0]]
    [⟨[], [0, 1], 0⟩, ⟨[], [1, 1], 0⟩] hlen).2⟩

/-- C5 witness: for the unnormalized query `[2,0,0]` (squared norm `4`) the
simple query returns an error, by the error characterization. -/
theorem claim_C5_witness :
    (1 / 1000000 : ℚ) < |sum_squares ([2, 0, 0] : List ℚ) - 1| ∧
    (∃ e, simple_query ([[1, 0, 0]] : List (List ℚ)) [2, 0, 0] (1 / 2)
      (fun _ => none) (1 / 2) = .error e) := by
  have hgt : (1 / 1000000 : ℚ) < |sum_squares ([2, 0, 0] : List ℚ) - 1| := by
    norm_num [sum_squares]
  exact ⟨hgt,
    ((claim_C5_query_error_iff_unnormalized [[1, 0, 0]] ([2, 0, 0] : List ℚ) (1 / 2)
      (fun _ => none) (1 / 2) [] (fun _ => none)).1).mpr hgt⟩

/-- C6 witness: the corridor-bound identity instantiated at a concrete
one-direction index. -/
theorem claim_C6_witness :
    close_left ([[(1 : ℝ), 0, 0]] : List (List ℝ)).length =
      close_right ([[(1 : ℝ), 0, 0]] : List (List ℝ)).length -
        3 / 2 * (Real.log (Real.log ([[(1 : ℝ), 0, 0]] : List (List ℝ)).length) /
          close_right ([[(1 : ℝ), 0, 0]] : List (List ℝ)).length) :=
  (claim_C6_corridor_assignment [] [[(1 : ℝ), 0, 0]]).1

/-- C10 witness: the empty-dataset panic and the discarded validation error
instantiated at concrete parameters. -/
theorem claim_C10_witness :
    Simple.Top1.new [] [] 1 1 1 = none ∧
    check_input ([] : List (List ℝ)) 1 1 1 ≠ .ok () :=
  ⟨(claim_C10_empty_dataset_panics 1 1 1 [] []).1,
    (claim_C10_empty_dataset_panics 1 1 1 [] []).2.2.2.2⟩

end PANN
